import Mathlib

/-!
Shallow embedding of the Tari `test-templates` NFT marketplace auction
engine, translated from `src/nft_marketplace/src/lib.rs` (the registry
variant, primary) and `src/nft-marketplace/templates/auction/src/lib.rs`
(the per-component variant, used for the badge mint/burn policies).

Modelling conventions:
* component addresses, resource addresses and non-fungible ids are `Nat`;
* `Amount` is `Nat` (payments are bucket amounts, non-negative);
* epochs are `Nat`; the one place the source does u64 arithmetic
  (`Consensus::current_epoch() + epoch_period`) is modelled with an
  explicit `% 2^64`, matching release-build wrapping semantics;
* each public method is a function `... → State → State × Option String`,
  where `some msg` is the Rust `assert!`/`expect` panic message. The
  ledger environment rolls back every container mutation when a method
  panics, so the transactional wrappers return the original state on
  error. `bid_raw` additionally exposes the partly mutated state at
  the panic point, translated statement by statement from the source, so
  that the order of checks and mutations inside one call is visible;
* external `deposit` calls into account components are modelled by a
  ledger `accounts : Addr → Account` tracking token balance and NFT
  holdings per account.
-/

abbrev Addr := Nat
abbrev ResAddr := Nat

/-- Identity of a non-fungible token: resource address plus id
(`NonFungibleAddress` in the source). -/
structure NftAddress where
  resource : ResAddr
  id : Nat
deriving DecidableEq, Repr

/-- The single accepted payment resource (`XTR2` in the source). -/
def XTR2 : ResAddr := 0

/-- Access rules used by the badge resources (`AccessRule` in the source;
only the two variants the sources use). -/
inductive AccessRule where
  | allowAll
  | denyAll
deriving DecidableEq, Repr

/-- The host resource layer permits a mint by an arbitrary caller exactly
when the mint rule of the resource is `AllowAll`. -/
def mintAllowed : AccessRule → Bool
  | .allowAll => true
  | .denyAll => false

/-- `Bid` from the source: the current highest bidder and the escrowed
payment vault (we record its balance). -/
structure Bid where
  bidder_account : Addr
  vault : Nat
deriving DecidableEq, Repr

/-- `Auction` from the source. `vault` is the number of units of the
auctioned NFT held by the item vault (1 until settlement, then 0). -/
structure Auction where
  vault : Nat
  seller_address : Addr
  min_price : Option Nat
  buy_price : Option Nat
  highest_bid : Option Bid
  ending_epoch : Nat
deriving DecidableEq, Repr

/-- An external account component: token balance and per-NFT holdings. -/
structure Account where
  xtr : Nat
  nfts : NftAddress → Nat

/-- State of the `NftMarketplace` component together with the ledger
facts its methods touch: the metadata store of the badge resource and mint
rule, which badge ids currently exist, and the external accounts. -/
structure MarketState where
  auctions : List (NftAddress × Auction)
  seller_badge_resource : ResAddr
  badgeMintRule : AccessRule
  badgeMeta : Nat → Option NftAddress
  badgeAlive : Nat → Bool
  accounts : Addr → Account

/-- Call context: the epoch oracle and the account-template oracle
(`Consensus::current_epoch`, `get_template_address == ACCOUNT_TEMPLATE_ADDRESS`). -/
structure Ctx where
  epoch : Nat
  isAccount : Addr → Bool

/-- `BTreeMap::get` on the auctions map. -/
def lookupA : List (NftAddress × Auction) → NftAddress → Option Auction
  | [], _ => none
  | (k, a) :: rest, k' => if k' = k then some a else lookupA rest k'

/-- `BTreeMap::insert` / in-place mutation through `get_mut`: replace the
value at the key, appending when absent. -/
def updA : List (NftAddress × Auction) → NftAddress → Auction → List (NftAddress × Auction)
  | [], k, a => [(k, a)]
  | (k', a') :: rest, k, a =>
      if k = k' then (k', a) :: rest else (k', a') :: updA rest k a

/-- Deposit of a token bucket into an account (`account.call("deposit", ...)`
with a fungible bucket). -/
def depositXtr (accs : Addr → Account) (who : Addr) (amt : Nat) : Addr → Account :=
  fun x => if x = who then { accs x with xtr := (accs x).xtr + amt } else accs x

/-- Deposit of an NFT bucket holding `n` units of `nft` into an account. -/
def depositNft (accs : Addr → Account) (who : Addr) (nft : NftAddress) (n : Nat) :
    Addr → Account :=
  fun x => if x = who then { accs x with nfts := fun k => if k = nft then (accs x).nfts k + n else (accs x).nfts k } else accs x

namespace NftMarketplace

/-- `NftMarketplace::new`: empty auctions map; badge resource built with
`mintable(AccessRule::AllowAll)` (source lib.rs:96). We fix the badge
resource address to 1 (any non-`XTR2` address). -/
def new : MarketState where
  auctions := []
  seller_badge_resource := 1
  badgeMintRule := .allowAll
  badgeMeta := fun _ => none
  badgeAlive := fun _ => false
  accounts := fun _ => { xtr := 0, nfts := fun _ => 0 }

/-- `NftMarketplace::get_auction`. -/
def get_auction (s : MarketState) (nft_address : NftAddress) : Option Auction :=
  lookupA s.auctions nft_address

/-- `NftMarketplace::start_auction`. The submitted bucket is described by
its resource type flag, the NFT identity and the unit count; `freshId` is
the `NonFungibleId::random()` drawn for the seller badge. The ending
epoch is the u64 sum `current_epoch + epoch_period`, wrapping mod 2^64. -/
def start_auction (c : Ctx) (s : MarketState)
    (bucketIsNonFungible : Bool) (nftRes : ResAddr) (nftId : Nat) (bucketAmount : Nat)
    (seller_address : Addr) (min_price buy_price : Option Nat)
    (epoch_period : Nat) (freshId : Nat) : MarketState × Option String :=
  if ¬ bucketIsNonFungible then (s, some "The resource is not a NFT")
  else if bucketAmount ≠ 1 then (s, some "Can only start an auction of a single NFT")
  else if ¬ epoch_period > 0 then (s, some "Invalid auction period")
  else if ¬ c.isAccount seller_address then (s, some "Invalid bidder account")
  else
    let auction : Auction :=
      { vault := bucketAmount
        seller_address := seller_address
        min_price := min_price
        buy_price := buy_price
        highest_bid := none
        ending_epoch := (c.epoch + epoch_period) % 2 ^ 64 }
    let nft_address : NftAddress := ⟨nftRes, nftId⟩
    ({ s with
        auctions := updA s.auctions nft_address auction
        badgeMeta := fun i => if i = freshId then some nft_address else s.badgeMeta i
        badgeAlive := fun i => if i = freshId then true else s.badgeAlive i },
     none)

/-- `NftMarketplace::process_auction_payments` (private). Withdraws the
whole item vault; with a highest bid, item to the bidder and escrowed
payment to the seller; otherwise item back to the seller. The auction
entry is not removed and `highest_bid` is not cleared (source TODOs at
lib.rs:303-306). -/
def process_auction_payments (s : MarketState) (nft_address : NftAddress) :
    MarketState × Option String :=
  match lookupA s.auctions nft_address with
  | none => (s, some "Auction does not exist")
  | some a =>
    let nftUnits := a.vault
    match a.highest_bid with
    | some b =>
        let accs1 := depositNft s.accounts b.bidder_account nft_address nftUnits
        let payment := b.vault
        let accs2 := depositXtr accs1 a.seller_address payment
        ({ s with
            auctions := updA s.auctions nft_address
              { a with vault := 0, highest_bid := some { b with vault := 0 } }
            accounts := accs2 },
         none)
    | none =>
        ({ s with
            auctions := updA s.auctions nft_address { a with vault := 0 }
            accounts := depositNft s.accounts a.seller_address nft_address nftUnits },
         none)

/-- `bid`, lines 191-212 of the source: refund the previous highest
bidder (if any) and record the new highest bid; a non-higher bid panics
before any mutation. -/
def bid_record (s : MarketState) (a : Auction) (nft_address : NftAddress)
    (bidder_account_address : Addr) (payAmt : Nat) : MarketState × Option String :=
  match a.highest_bid with
  | some b =>
      if ¬ payAmt > b.vault then (s, some "There is a higher bid placed")
      else
        ({ s with
            auctions := updA s.auctions nft_address
              { a with highest_bid := some { bidder_account := bidder_account_address, vault := payAmt } }
            accounts := depositXtr s.accounts b.bidder_account b.vault },
         none)
  | none =>
      ({ s with
          auctions := updA s.auctions nft_address
            { a with highest_bid := some { bidder_account := bidder_account_address, vault := payAmt } } },
       none)

/-- `bid`, lines 214-220 of the source: the buy-price block, run after
the new bid is recorded; a bid above the buy price panics here (after
the refund and replacement already happened), and a bid equal to the buy
price triggers immediate settlement. -/
def bid_buy_check (s1 : MarketState) (a : Auction) (nft_address : NftAddress)
    (payAmt : Nat) : MarketState × Option String :=
  match a.buy_price with
  | some bp =>
      if ¬ payAmt ≤ bp then (s1, some "Payment exceeds the buying price")
      else if payAmt = bp then process_auction_payments s1 nft_address
      else (s1, none)
  | none => (s1, none)

/-- `NftMarketplace::bid`, translated statement by statement. On a panic
the returned state is the state at the panic point (mutations performed
so far are kept), so the relative order of checks and mutations is
observable; the transactional `bid` below restores the pre-call state. -/
def bid_raw (c : Ctx) (s : MarketState) (bidder_account_address : Addr)
    (nft_address : NftAddress) (payRes : ResAddr) (payAmt : Nat) :
    MarketState × Option String :=
  match lookupA s.auctions nft_address with
  | none => (s, some "Auction does not exist")
  | some a =>
    if ¬ c.epoch < a.ending_epoch then (s, some "Auction has expired")
    else if payRes ≠ XTR2 then
      (s, some "Invalid payment resource, the marketplace only accepts Tari (XTR2) tokens")
    else if ¬ c.isAccount bidder_account_address then (s, some "Invalid bidder account")
    else if (match a.min_price with | some m => decide (payAmt < m) | none => false) then
      (s, some "Minimum price not met")
    else
      match bid_record s a nft_address bidder_account_address payAmt with
      | (s', some e) => (s', some e)
      | (s1, none) => bid_buy_check s1 a nft_address payAmt

/-- `NftMarketplace::bid` as observed through the ledger: a panic aborts
the transaction and rolls every mutation back. -/
def bid (c : Ctx) (s : MarketState) (bidder_account_address : Addr)
    (nft_address : NftAddress) (payRes : ResAddr) (payAmt : Nat) :
    MarketState × Option String :=
  match bid_raw c s bidder_account_address nft_address payRes payAmt with
  | (_, some e) => (s, some e)
  | (s', none) => (s', none)

/-- `NftMarketplace::finish_auction`. -/
def finish_auction (c : Ctx) (s : MarketState) (nft_address : NftAddress) :
    MarketState × Option String :=
  match lookupA s.auctions nft_address with
  | none => (s, some "Auction does not exist")
  | some a =>
    if ¬ c.epoch ≥ a.ending_epoch then (s, some "Auction is still in progress")
    else process_auction_payments s nft_address

/-- `NftMarketplace::cancel_auction`. The presented badge bucket is
described by its resource address and the badge id it contains; the badge
metadata lookup yields the NFT address the badge was bound to at mint.
The badge is NOT burned (source TODO at lib.rs:303). -/
def cancel_auction (c : Ctx) (s : MarketState) (badgeRes : ResAddr) (badgeId : Nat) :
    MarketState × Option String :=
  if badgeRes ≠ s.seller_badge_resource then (s, some "Invalid seller badge resource")
  else
    match s.badgeMeta badgeId with
    | none => (s, some "Invalid seller badge: No NFT resource field in metadata")
    | some nft_address =>
      match lookupA s.auctions nft_address with
      | none => (s, some "Auction does not exist")
      | some a =>
        if ¬ c.epoch < a.ending_epoch then (s, some "Auction has ended")
        else
          match a.highest_bid with
          | some b =>
              let accs1 := depositXtr s.accounts b.bidder_account b.vault
              let s1 : MarketState :=
                { s with
                    auctions := updA s.auctions nft_address { a with highest_bid := none }
                    accounts := accs1 }
              process_auction_payments s1 nft_address
          | none => process_auction_payments s nft_address

/-- A mint performed by an arbitrary caller against the seller badge
resource, as the host resource layer executes it: permitted exactly when
the mint rule of the resource allows it (`AccessRule::AllowAll`). -/
def external_mint (s : MarketState) (badgeId : Nat) (data : NftAddress) :
    MarketState × Option String :=
  if mintAllowed s.badgeMintRule then
    ({ s with
        badgeMeta := fun i => if i = badgeId then some data else s.badgeMeta i
        badgeAlive := fun i => if i = badgeId then true else s.badgeAlive i },
     none)
  else (s, some "Access denied")

end NftMarketplace

/-! ## The per-component `Auction` template variant

Translated from `src/nft-marketplace/templates/auction/src/lib.rs`.
Only the parts the claims compare against the registry variant are
needed: the badge mint rule fixed at creation (`mintable(AccessRule::DenyAll)`,
line 103) and `cancel`, which burns the badge (line 221) and leaves
`highest_bid` in place with a drained vault (the clearing is commented
out, lines 215-217). -/

/-- State of one `Auction` component of the template variant, plus the
liveness of its unique seller badge and the external accounts. -/
structure TplState where
  seller_badge_resource : ResAddr
  vault : Nat
  nft : NftAddress
  seller_address : Addr
  min_price : Option Nat
  buy_price : Option Nat
  highest_bid : Option Bid
  ending_epoch : Nat
  badgeMintRule : AccessRule
  badgeAlive : Bool
  accounts : Addr → Account

namespace TplAuction

/-- The badge mint rule `Auction::new` installs
(`.mintable(AccessRule::DenyAll)`, template lib.rs:103). -/
def newBadgeMintRule : AccessRule := .denyAll

/-- `Auction::cancel` of the template variant: checks the badge resource
and that the auction has not ended, refunds the standing bid (without
clearing the `highest_bid` slot, faithful to the commented-out line),
burns the badge, and returns the NFT to the seller. -/
def cancel (c : Ctx) (s : TplState) (badgeRes : ResAddr) : TplState × Option String :=
  if badgeRes ≠ s.seller_badge_resource then (s, some "Invalid seller badge")
  else if ¬ c.epoch < s.ending_epoch then (s, some "Auction has ended")
  else
    let s1 : TplState :=
      match s.highest_bid with
      | some b =>
          { s with
              accounts := depositXtr s.accounts b.bidder_account b.vault
              highest_bid := some { b with vault := 0 } }
      | none => s
    let s2 : TplState := { s1 with badgeAlive := false }
    ({ s2 with
        vault := 0
        accounts := depositNft s2.accounts s2.seller_address s2.nft s2.vault },
     none)

end TplAuction

/-! ## Traces of marketplace operations

Reachable states are the states obtained from `NftMarketplace.new` by any
sequence of (transactional) `start_auction` / `bid` / `finish_auction` /
`cancel_auction` calls. Alongside the state we run a specification-side
ghost map recording, per auction key, the amount of the most recent
accepted bid — zeroed when a settlement drains the bid vault, cleared
when a cancellation empties the bid slot. -/

/-- One marketplace call with its arguments and call context. -/
inductive Event where
  | start (c : Ctx) (isNft : Bool) (nftRes : ResAddr) (nftId : Nat) (amt : Nat)
      (seller : Addr) (minP buyP : Option Nat) (period : Nat) (freshId : Nat)
  | bid (c : Ctx) (bidder : Addr) (nft : NftAddress) (payRes : ResAddr) (payAmt : Nat)
  | finish (c : Ctx) (nft : NftAddress)
  | cancel (c : Ctx) (badgeRes : ResAddr) (badgeId : Nat)

/-- Execute one call transactionally (a failed call leaves the state as
it was). -/
def applyEvent (e : Event) (s : MarketState) : MarketState :=
  match e with
  | .start c isNft nftRes nftId amt seller minP buyP period freshId =>
      (NftMarketplace.start_auction c s isNft nftRes nftId amt seller minP buyP period freshId).1
  | .bid c bidder nft payRes payAmt =>
      (NftMarketplace.bid c s bidder nft payRes payAmt).1
  | .finish c nft => (NftMarketplace.finish_auction c s nft).1
  | .cancel c badgeRes badgeId => (NftMarketplace.cancel_auction c s badgeRes badgeId).1

/-- Ghost tracker: for each auction key, `some v` means the bid slot is
occupied and `v` is the escrow it should hold — the amount of the most
recent accepted bid, or 0 once a settlement has drained it; `none` means
the bid slot is empty. Updated from the arguments and outcome. -/
def ghostStep (e : Event) (s : MarketState) (g : NftAddress → Option Nat) :
    NftAddress → Option Nat :=
  match e with
  | .start c isNft nftRes nftId amt seller minP buyP period freshId =>
      if (NftMarketplace.start_auction c s isNft nftRes nftId amt seller minP buyP period freshId).2 = none then
        fun k => if k = ⟨nftRes, nftId⟩ then none else g k
      else g
  | .bid c bidder nft payRes payAmt =>
      if (NftMarketplace.bid c s bidder nft payRes payAmt).2 = none then
        match lookupA s.auctions nft with
        | some a =>
            -- settlement runs inside the call exactly when the bid hits the buy price
            if a.buy_price = some payAmt then fun k => if k = nft then some 0 else g k
            else fun k => if k = nft then some payAmt else g k
        | none => g
      else g
  | .finish c nft =>
      if (NftMarketplace.finish_auction c s nft).2 = none then
        match lookupA s.auctions nft with
        | some a =>
            match a.highest_bid with
            | some _ => fun k => if k = nft then some 0 else g k
            | none => g
        | none => g
      else g
  | .cancel c badgeRes badgeId =>
      if (NftMarketplace.cancel_auction c s badgeRes badgeId).2 = none then
        match s.badgeMeta badgeId with
        | some nft => fun k => if k = nft then none else g k
        | none => g
      else g

/-- Run a trace of calls from a state, threading the ghost map. -/
def runTrace : List Event → MarketState × (NftAddress → Option Nat) →
    MarketState × (NftAddress → Option Nat)
  | [], sg => sg
  | e :: rest, (s, g) => runTrace rest (applyEvent e s, ghostStep e s g)

/-- The custody invariant: the item vault of every auction holds at most one
unit, and its bid slot agrees with the ghost tracker — occupied exactly
when the tracker is, holding exactly the tracked amount. -/
def InvC3 (s : MarketState) (g : NftAddress → Option Nat) : Prop :=
  ∀ k a, lookupA s.auctions k = some a →
    a.vault ≤ 1 ∧
    (match a.highest_bid, g k with
     | none, none => True
     | some b, some v => b.vault = v
     | _, _ => False)

/-! ## Map lemmas -/

theorem lookupA_updA (l : List (NftAddress × Auction)) (k : NftAddress) (a : Auction)
    (k' : NftAddress) :
    lookupA (updA l k a) k' = if k' = k then some a else lookupA l k' := by
  induction l with
  | nil =>
    by_cases h : k' = k <;> simp [updA, lookupA, h]
  | cons p rest ih =>
    obtain ⟨k1, a1⟩ := p
    by_cases h : k = k1
    · subst h
      by_cases h2 : k' = k <;> simp [updA, lookupA, h2]
    · by_cases h2 : k' = k1
      · subst h2
        have h3 : ¬ k' = k := fun hh => h hh.symm
        simp [updA, lookupA, h, h3]
      · simp [updA, lookupA, h, h2, ih]

theorem updA_updA (l : List (NftAddress × Auction)) (k : NftAddress) (a b : Auction) :
    updA (updA l k a) k b = updA l k b := by
  induction l with
  | nil => simp [updA]
  | cons p rest ih =>
    obtain ⟨k1, a1⟩ := p
    by_cases h : k = k1 <;> simp [updA, h, ih]

/-! ## Characterization lemmas for the marketplace operations -/

/-- The auction record `process_auction_payments` leaves behind: item
vault drained, escrow (if any) drained, bid slot not cleared. -/
def settledAuction (a : Auction) : Auction :=
  match a.highest_bid with
  | some b => { a with vault := 0, highest_bid := some { b with vault := 0 } }
  | none => { a with vault := 0 }

theorem process_auctions_char (s : MarketState) (nft : NftAddress) (a : Auction)
    (h : lookupA s.auctions nft = some a) :
    (NftMarketplace.process_auction_payments s nft).1.auctions
        = updA s.auctions nft (settledAuction a) ∧
      (NftMarketplace.process_auction_payments s nft).2 = none := by
  unfold NftMarketplace.process_auction_payments
  rw [h]
  rcases ha : a.highest_bid with _ | b <;> simp [settledAuction, ha]

/-- A failed (panicking) marketplace `bid` leaves the ledger unchanged:
the transaction is rolled back. -/
theorem bid_err (c : Ctx) (s : MarketState) (bidder : Addr) (nft : NftAddress)
    (payRes : ResAddr) (payAmt : Nat)
    (h : (NftMarketplace.bid c s bidder nft payRes payAmt).2 ≠ none) :
    (NftMarketplace.bid c s bidder nft payRes payAmt).1 = s := by
  unfold NftMarketplace.bid at *
  rcases hr : NftMarketplace.bid_raw c s bidder nft payRes payAmt with ⟨s', eo⟩
  cases eo <;> simp [hr] at h ⊢

/-- On success, the transactional `bid` is the raw execution. -/
theorem bid_ok_eq_raw (c : Ctx) (s : MarketState) (bidder : Addr) (nft : NftAddress)
    (payRes : ResAddr) (payAmt : Nat)
    (h : (NftMarketplace.bid c s bidder nft payRes payAmt).2 = none) :
    (NftMarketplace.bid c s bidder nft payRes payAmt).1
        = (NftMarketplace.bid_raw c s bidder nft payRes payAmt).1 ∧
      (NftMarketplace.bid_raw c s bidder nft payRes payAmt).2 = none := by
  unfold NftMarketplace.bid at *
  rcases hr : NftMarketplace.bid_raw c s bidder nft payRes payAmt with ⟨s', eo⟩
  cases eo <;> simp [hr] at h ⊢

/-- A successful `bid_record` writes the new highest bid into the
auction entry and leaves every other state component as it was up to the
refund deposit. -/
theorem bid_record_ok (s : MarketState) (a : Auction) (nft : NftAddress)
    (bidder : Addr) (payAmt : Nat)
    (h : (NftMarketplace.bid_record s a nft bidder payAmt).2 = none) :
    (NftMarketplace.bid_record s a nft bidder payAmt).1.auctions
        = updA s.auctions nft
            { a with highest_bid := some { bidder_account := bidder, vault := payAmt } } := by
  unfold NftMarketplace.bid_record at *
  rcases hb : a.highest_bid with _ | b
  · simp
  · rw [hb] at h
    by_cases hle : payAmt ≤ b.vault
    · simp [hle] at h
    · simp [hle]

/-- Success characterization of the raw `bid`: the auction existed, the
epoch gate passed, and the resulting auctions map either records the new
highest bid (no buy-price hit) or additionally settles (bid equals the
buy price: item vault and escrow drained in the same call). -/
theorem bid_raw_ok_char (c : Ctx) (s : MarketState) (bidder : Addr) (nft : NftAddress)
    (payRes : ResAddr) (payAmt : Nat)
    (h : (NftMarketplace.bid_raw c s bidder nft payRes payAmt).2 = none) :
    ∃ a, lookupA s.auctions nft = some a ∧ c.epoch < a.ending_epoch ∧
      ((a.buy_price ≠ some payAmt ∧
        (NftMarketplace.bid_raw c s bidder nft payRes payAmt).1.auctions
          = updA s.auctions nft
              { a with highest_bid := some { bidder_account := bidder, vault := payAmt } }) ∨
       (a.buy_price = some payAmt ∧
        (NftMarketplace.bid_raw c s bidder nft payRes payAmt).1.auctions
          = updA s.auctions nft
              { a with vault := 0,
                       highest_bid := some { bidder_account := bidder, vault := 0 } })) := by
  unfold NftMarketplace.bid_raw at *
  rcases hl : lookupA s.auctions nft with _ | a
  · rw [hl] at h
    simp at h
  · rw [hl] at h
    by_cases h1 : c.epoch < a.ending_epoch
    case neg => simp [h1] at h
    by_cases h2 : payRes = XTR2
    case neg => simp [h1, h2] at h
    by_cases h3 : c.isAccount bidder
    case neg => simp [h1, h2, h3] at h
    subst h2
    refine ⟨a, rfl, h1, ?_⟩
    simp only [h1, h3, ne_eq, not_true_eq_false, not_false_eq_true, if_false, if_true,
      ite_false, ite_true, ite_not, reduceIte] at h ⊢
    cases hmin : (match a.min_price with | some m => decide (payAmt < m) | none => false) with
    | true => simp [hmin] at h
    | false =>
    rw [hmin] at h
    simp only [hmin, if_false, Bool.false_eq_true, reduceIte] at h ⊢
    rcases hrec : NftMarketplace.bid_record s a nft bidder payAmt with ⟨s1, eo⟩
    rw [hrec] at h
    cases eo with
    | some e => simp at h
    | none =>
    have hrec2 : (NftMarketplace.bid_record s a nft bidder payAmt).2 = none := by
      rw [hrec]
    have hauc := bid_record_ok s a nft bidder payAmt hrec2
    rw [hrec] at hauc
    have hauc2 : s1.auctions
        = updA s.auctions nft
            { a with highest_bid := some { bidder_account := bidder, vault := payAmt } } := hauc
    unfold NftMarketplace.bid_buy_check at h ⊢
    rcases hbp : a.buy_price with _ | bp
    · rw [hbp] at h
      simp [hauc2, hbp]
    · rw [hbp] at h
      by_cases h5 : payAmt ≤ bp
      case neg => simp [h5] at h
      by_cases h6 : payAmt = bp
      · have hl1 : lookupA s1.auctions nft
            = some { a with highest_bid := some { bidder_account := bidder, vault := payAmt } } := by
          rw [hauc2, lookupA_updA]
          simp
        have hp := process_auctions_char s1 nft
          { a with highest_bid := some { bidder_account := bidder, vault := payAmt } } hl1
        right
        refine ⟨by rw [h6], ?_⟩
        have hp1 : (NftMarketplace.process_auction_payments s1 nft).1.auctions
            = updA s.auctions nft
                { a with vault := 0,
                         highest_bid := some { bidder_account := bidder, vault := 0 } } := by
          rw [hp.1, hauc2, updA_updA]
          rfl
        simp [h5, h6, hp1, hbp]
      · left
        have hne : (some bp : Option Nat) ≠ some payAmt := by
          intro hc
          exact h6 (Option.some.inj hc).symm
        refine ⟨hne, ?_⟩
        simp [h5, h6, hauc2, hbp]

/-- A failed `finish_auction` leaves the state unchanged. -/
theorem finish_err (c : Ctx) (s : MarketState) (nft : NftAddress)
    (h : (NftMarketplace.finish_auction c s nft).2 ≠ none) :
    (NftMarketplace.finish_auction c s nft).1 = s := by
  unfold NftMarketplace.finish_auction at *
  rcases hl : lookupA s.auctions nft with _ | a
  · rfl
  · rw [hl] at h
    by_cases h1 : c.epoch ≥ a.ending_epoch
    · exact absurd (process_auctions_char s nft a hl).2 (by simpa [h1] using h)
    · simp [h1]

/-- Success characterization of `finish_auction`. -/
theorem finish_ok_char (c : Ctx) (s : MarketState) (nft : NftAddress)
    (h : (NftMarketplace.finish_auction c s nft).2 = none) :
    ∃ a, lookupA s.auctions nft = some a ∧ c.epoch ≥ a.ending_epoch ∧
      (NftMarketplace.finish_auction c s nft).1.auctions
        = updA s.auctions nft (settledAuction a) := by
  unfold NftMarketplace.finish_auction at *
  rcases hl : lookupA s.auctions nft with _ | a
  · rw [hl] at h
    simp at h
  · rw [hl] at h
    by_cases h1 : c.epoch ≥ a.ending_epoch
    · exact ⟨a, rfl, h1, by simpa [h1] using (process_auctions_char s nft a hl).1⟩
    · simp [h1] at h

/-- A failed `cancel_auction` leaves the state unchanged. -/
theorem cancel_err (c : Ctx) (s : MarketState) (badgeRes : ResAddr) (badgeId : Nat)
    (h : (NftMarketplace.cancel_auction c s badgeRes badgeId).2 ≠ none) :
    (NftMarketplace.cancel_auction c s badgeRes badgeId).1 = s := by
  unfold NftMarketplace.cancel_auction at *
  by_cases h1 : badgeRes = s.seller_badge_resource
  case neg => simp [h1]
  subst h1
  simp only [ne_eq, not_true_eq_false, if_false, ite_not, if_true, reduceIte] at h ⊢
  rcases hm : s.badgeMeta badgeId with _ | nft
  · simp [hm]
  simp only [hm] at h
  rcases hl : lookupA s.auctions nft with _ | a
  · simp [hl]
  simp only [hl] at h
  by_cases h2 : c.epoch < a.ending_epoch
  case neg => simp [hl, h2]
  exfalso
  apply h
  simp only [h2, not_true_eq_false, if_false, ite_not, if_true, ite_true, reduceIte]
  rcases hb : a.highest_bid with _ | b
  · exact (process_auctions_char s nft a hl).2
  · have hl1 : lookupA (updA s.auctions nft { a with highest_bid := none }) nft
        = some { a with highest_bid := none } := by
      rw [lookupA_updA]; simp
    exact (process_auctions_char
      { s with auctions := updA s.auctions nft { a with highest_bid := none },
               accounts := depositXtr s.accounts b.bidder_account b.vault }
      nft { a with highest_bid := none } hl1).2

/-- Success characterization of `cancel_auction`: the badge resource
matched, the badge metadata named an existing auction that had not
ended; the item vault is drained and the bid slot cleared. -/
theorem cancel_ok_char (c : Ctx) (s : MarketState) (badgeRes : ResAddr) (badgeId : Nat)
    (h : (NftMarketplace.cancel_auction c s badgeRes badgeId).2 = none) :
    ∃ nft a, s.badgeMeta badgeId = some nft ∧ lookupA s.auctions nft = some a ∧
      badgeRes = s.seller_badge_resource ∧ c.epoch < a.ending_epoch ∧
      (NftMarketplace.cancel_auction c s badgeRes badgeId).1.auctions
        = updA s.auctions nft { a with vault := 0, highest_bid := none } := by
  unfold NftMarketplace.cancel_auction at *
  by_cases h1 : badgeRes = s.seller_badge_resource
  case neg => simp [h1] at h
  subst h1
  simp only [ne_eq, not_true_eq_false, if_false, ite_not, if_true, reduceIte] at h ⊢
  rcases hm : s.badgeMeta badgeId with _ | nft
  · rw [hm] at h
    simp at h
  simp only [hm] at h
  rcases hl : lookupA s.auctions nft with _ | a
  · rw [hl] at h
    simp at h
  simp only [hl] at h
  by_cases h2 : c.epoch < a.ending_epoch
  case neg => simp [h2] at h
  refine ⟨nft, a, rfl, hl, by trivial, h2, ?_⟩
  simp only [hl, h2, not_true_eq_false, if_false, ite_not, if_true, ite_true, reduceIte]
  rcases hb : a.highest_bid with _ | b
  · have hp := process_auctions_char s nft a hl
    rw [hp.1]
    have hs : settledAuction a = { a with vault := 0, highest_bid := none } := by
      unfold settledAuction
      rw [hb]
    rw [hs]
  · have hl1 : lookupA
        (updA s.auctions nft { a with highest_bid := none }) nft
        = some { a with highest_bid := none } := by
      rw [lookupA_updA]; simp
    have hp := process_auctions_char
      { s with auctions := updA s.auctions nft { a with highest_bid := none },
               accounts := depositXtr s.accounts b.bidder_account b.vault }
      nft { a with highest_bid := none } hl1
    rw [hp.1]
    show updA (updA s.auctions nft { a with highest_bid := none }) nft
        (settledAuction { a with highest_bid := none })
      = updA s.auctions nft { a with vault := 0, highest_bid := none }
    rw [updA_updA]
    rfl

/-- A failed `start_auction` leaves the state unchanged. -/
theorem start_err (c : Ctx) (s : MarketState) (isNft : Bool) (nftRes : ResAddr)
    (nftId : Nat) (amt : Nat) (seller : Addr) (minP buyP : Option Nat)
    (period : Nat) (freshId : Nat)
    (h : (NftMarketplace.start_auction c s isNft nftRes nftId amt seller minP buyP period freshId).2 ≠ none) :
    (NftMarketplace.start_auction c s isNft nftRes nftId amt seller minP buyP period freshId).1 = s := by
  unfold NftMarketplace.start_auction at *
  by_cases h1 : isNft <;> by_cases h2 : amt = 1 <;> by_cases h3 : period > 0 <;>
    by_cases h4 : c.isAccount seller <;> simp [h1, h2, h3, h4] at h ⊢

/-- Success characterization of `start_auction`: a fresh entry holding
one unit of the item with an empty bid slot, the ending epoch computed
by wrapping u64 addition. -/
theorem start_ok_char (c : Ctx) (s : MarketState) (isNft : Bool) (nftRes : ResAddr)
    (nftId : Nat) (amt : Nat) (seller : Addr) (minP buyP : Option Nat)
    (period : Nat) (freshId : Nat)
    (h : (NftMarketplace.start_auction c s isNft nftRes nftId amt seller minP buyP period freshId).2 = none) :
    amt = 1 ∧
    (NftMarketplace.start_auction c s isNft nftRes nftId amt seller minP buyP period freshId).1.auctions
      = updA s.auctions ⟨nftRes, nftId⟩
          { vault := amt, seller_address := seller, min_price := minP, buy_price := buyP,
            highest_bid := none, ending_epoch := (c.epoch + period) % 2 ^ 64 } := by
  unfold NftMarketplace.start_auction at *
  by_cases h1 : isNft <;> by_cases h2 : amt = 1 <;> by_cases h3 : period > 0 <;>
    by_cases h4 : c.isAccount seller <;> simp [h1, h2, h3, h4] at h ⊢

/-! ## Preservation of the custody invariant -/

theorem invC3_step (e : Event) (s : MarketState) (g : NftAddress → Option Nat)
    (hInv : InvC3 s g) : InvC3 (applyEvent e s) (ghostStep e s g) := by
  cases e with
  | start c isNft nftRes nftId amt seller minP buyP period freshId =>
    by_cases hs : (NftMarketplace.start_auction c s isNft nftRes nftId amt seller
        minP buyP period freshId).2 = none
    · have hc := start_ok_char c s isNft nftRes nftId amt seller minP buyP period freshId hs
      have hg : ghostStep (Event.start c isNft nftRes nftId amt seller minP buyP period freshId) s g
          = fun k => if k = ⟨nftRes, nftId⟩ then none else g k := by
        simp only [ghostStep, if_pos hs]
      rw [hg]
      intro k a hk
      simp only [applyEvent] at hk
      rw [hc.2, lookupA_updA] at hk
      by_cases hkey : k = ⟨nftRes, nftId⟩
      · rw [if_pos hkey] at hk
        have ha := Option.some.inj hk
        subst ha
        refine ⟨by simp [hc.1], ?_⟩
        simp [hkey]
      · rw [if_neg hkey] at hk
        have hi := hInv k a hk
        simpa [hkey] using hi
    · have hst := start_err c s isNft nftRes nftId amt seller minP buyP period freshId hs
      have ha : applyEvent (Event.start c isNft nftRes nftId amt seller minP buyP period freshId) s
          = s := by
        simp only [applyEvent]
        exact hst
      have hg : ghostStep (Event.start c isNft nftRes nftId amt seller minP buyP period freshId) s g
          = g := by
        simp only [ghostStep, if_neg hs]
      rw [ha, hg]
      exact hInv
  | bid c bidder nft payRes payAmt =>
    by_cases hs : (NftMarketplace.bid c s bidder nft payRes payAmt).2 = none
    · have hc := bid_ok_eq_raw c s bidder nft payRes payAmt hs
      obtain ⟨a, hl, hep, hcase⟩ := bid_raw_ok_char c s bidder nft payRes payAmt hc.2
      have hvault := (hInv nft a hl).1
      have ha : applyEvent (Event.bid c bidder nft payRes payAmt) s
          = (NftMarketplace.bid_raw c s bidder nft payRes payAmt).1 := by
        simp only [applyEvent]
        exact hc.1
      rcases hcase with ⟨hne, hupd⟩ | ⟨heq, hupd⟩
      · have hg : ghostStep (Event.bid c bidder nft payRes payAmt) s g
            = fun k => if k = nft then some payAmt else g k := by
          simp only [ghostStep, if_pos hs, hl]
          rw [if_neg hne]
        rw [ha, hg]
        intro k a' hk
        rw [hupd, lookupA_updA] at hk
        by_cases hkey : k = nft
        · rw [if_pos hkey] at hk
          have he := Option.some.inj hk
          subst he
          exact ⟨hvault, by simp [hkey]⟩
        · rw [if_neg hkey] at hk
          have hi := hInv k a' hk
          simpa [hkey] using hi
      · have hg : ghostStep (Event.bid c bidder nft payRes payAmt) s g
            = fun k => if k = nft then some 0 else g k := by
          simp only [ghostStep, if_pos hs, hl]
          rw [if_pos heq]
        rw [ha, hg]
        intro k a' hk
        rw [hupd, lookupA_updA] at hk
        by_cases hkey : k = nft
        · rw [if_pos hkey] at hk
          have he := Option.some.inj hk
          subst he
          exact ⟨Nat.zero_le 1, by simp [hkey]⟩
        · rw [if_neg hkey] at hk
          have hi := hInv k a' hk
          simpa [hkey] using hi
    · have hst := bid_err c s bidder nft payRes payAmt hs
      have ha : applyEvent (Event.bid c bidder nft payRes payAmt) s = s := by
        simp only [applyEvent]
        exact hst
      have hg : ghostStep (Event.bid c bidder nft payRes payAmt) s g = g := by
        simp only [ghostStep, if_neg hs]
      rw [ha, hg]
      exact hInv
  | finish c nft =>
    by_cases hs : (NftMarketplace.finish_auction c s nft).2 = none
    · obtain ⟨a, hl, hep, hupd⟩ := finish_ok_char c s nft hs
      have hmatch := (hInv nft a hl).2
      have hvault := (hInv nft a hl).1
      have ha : applyEvent (Event.finish c nft) s
          = (NftMarketplace.finish_auction c s nft).1 := rfl
      rcases hb : a.highest_bid with _ | b
      · have hg : ghostStep (Event.finish c nft) s g = g := by
          simp only [ghostStep, if_pos hs, hl, hb]
        rw [ha, hg]
        intro k a' hk
        rw [hupd, lookupA_updA] at hk
        by_cases hkey : k = nft
        · rw [if_pos hkey] at hk
          have he := Option.some.inj hk
          subst he
          have hsa : settledAuction a = { a with vault := 0 } := by
            unfold settledAuction
            rw [hb]
          rw [hsa]
          subst hkey
          exact ⟨Nat.zero_le 1, hmatch⟩
        · rw [if_neg hkey] at hk
          exact hInv k a' hk
      · have hg : ghostStep (Event.finish c nft) s g
            = fun k => if k = nft then some 0 else g k := by
          simp only [ghostStep, if_pos hs, hl, hb]
        rw [ha, hg]
        intro k a' hk
        rw [hupd, lookupA_updA] at hk
        by_cases hkey : k = nft
        · rw [if_pos hkey] at hk
          have he := Option.some.inj hk
          subst he
          have hsa : settledAuction a
              = { a with vault := 0, highest_bid := some { b with vault := 0 } } := by
            unfold settledAuction
            rw [hb]
          rw [hsa]
          exact ⟨Nat.zero_le 1, by simp [hkey]⟩
        · rw [if_neg hkey] at hk
          have hi := hInv k a' hk
          simpa [hkey] using hi
    · have hst := finish_err c s nft hs
      have ha : applyEvent (Event.finish c nft) s = s := by
        simp only [applyEvent]
        exact hst
      have hg : ghostStep (Event.finish c nft) s g = g := by
        simp only [ghostStep, if_neg hs]
      rw [ha, hg]
      exact hInv
  | cancel c badgeRes badgeId =>
    by_cases hs : (NftMarketplace.cancel_auction c s badgeRes badgeId).2 = none
    · obtain ⟨nft, a, hm, hl, hres, hep, hupd⟩ := cancel_ok_char c s badgeRes badgeId hs
      have ha : applyEvent (Event.cancel c badgeRes badgeId) s
          = (NftMarketplace.cancel_auction c s badgeRes badgeId).1 := rfl
      have hg : ghostStep (Event.cancel c badgeRes badgeId) s g
          = fun k => if k = nft then none else g k := by
        simp only [ghostStep, if_pos hs, hm]
      rw [ha, hg]
      intro k a' hk
      rw [hupd, lookupA_updA] at hk
      by_cases hkey : k = nft
      · rw [if_pos hkey] at hk
        have he := Option.some.inj hk
        subst he
        exact ⟨Nat.zero_le 1, by simp [hkey]⟩
      · rw [if_neg hkey] at hk
        have hi := hInv k a' hk
        simpa [hkey] using hi
    · have hst := cancel_err c s badgeRes badgeId hs
      have ha : applyEvent (Event.cancel c badgeRes badgeId) s = s := by
        simp only [applyEvent]
        exact hst
      have hg : ghostStep (Event.cancel c badgeRes badgeId) s g = g := by
        simp only [ghostStep, if_neg hs]
      rw [ha, hg]
      exact hInv

/-- The custody invariant holds along every trace from an invariant state. -/
theorem invC3_runTrace (evs : List Event) (s : MarketState) (g : NftAddress → Option Nat)
    (h : InvC3 s g) :
    InvC3 (runTrace evs (s, g)).1 (runTrace evs (s, g)).2 := by
  induction evs generalizing s g with
  | nil => exact h
  | cons e rest ih => exact ih (applyEvent e s) (ghostStep e s g) (invC3_step e s g h)

/-- The freshly created marketplace (no auctions) trivially satisfies the
custody invariant with the empty ghost map. -/
theorem invC3_new : InvC3 NftMarketplace.new (fun _ => none) := by
  intro k a hk
  simp [NftMarketplace.new, lookupA] at hk


/-! ## Pointwise account lemmas -/

theorem depositXtr_nfts (accs : Addr → Account) (who : Addr) (amt : Nat) (x : Addr) :
    ((depositXtr accs who amt) x).nfts = (accs x).nfts := by
  unfold depositXtr
  by_cases h : x = who <;> simp [h]

theorem depositNft_xtr (accs : Addr → Account) (who : Addr) (nft : NftAddress) (n : Nat)
    (x : Addr) : ((depositNft accs who nft n) x).xtr = (accs x).xtr := by
  unfold depositNft
  by_cases h : x = who <;> simp [h]

theorem depositXtr_self (accs : Addr → Account) (who : Addr) (amt : Nat) :
    ((depositXtr accs who amt) who).xtr = (accs who).xtr + amt := by
  unfold depositXtr
  simp

theorem depositXtr_ne (accs : Addr → Account) (who : Addr) (amt : Nat) (x : Addr)
    (h : x ≠ who) : (depositXtr accs who amt) x = accs x := by
  unfold depositXtr
  simp [h]

theorem depositNft_self (accs : Addr → Account) (who : Addr) (nft : NftAddress) (n : Nat) :
    ((depositNft accs who nft n) who).nfts nft = (accs who).nfts nft + n := by
  unfold depositNft
  simp

theorem depositNft_ne (accs : Addr → Account) (who : Addr) (nft : NftAddress) (n : Nat)
    (x : Addr) (h : x ≠ who) : (depositNft accs who nft n) x = accs x := by
  unfold depositNft
  simp [h]

/-- Writing back the value already stored at a key leaves the map unchanged. -/
theorem updA_self (l : List (NftAddress × Auction)) (k : NftAddress) (a : Auction)
    (h : lookupA l k = some a) : updA l k a = l := by
  induction l with
  | nil => simp [lookupA] at h
  | cons p rest ih =>
    obtain ⟨k1, a1⟩ := p
    by_cases hk : k = k1
    · subst hk
      unfold lookupA at h
      rw [if_pos rfl] at h
      unfold updA
      rw [if_pos rfl, Option.some.inj h]
    · unfold lookupA at h
      rw [if_neg hk] at h
      unfold updA
      rw [if_neg hk, ih h]

/-! ## Accepted-bid step characterization and bid chains (for the
refund-then-replace property) -/

/-- Full characterization of one accepted bid that does not hit the buy
price: the previous highest bidder (if any) is refunded their whole
escrow and the new bid is recorded; nothing else changes. -/
theorem bid_step_full (c : Ctx) (s : MarketState) (bidder : Addr) (nft : NftAddress)
    (payAmt : Nat) (a : Auction)
    (hl : lookupA s.auctions nft = some a)
    (hep : c.epoch < a.ending_epoch)
    (hacct : c.isAccount bidder = true)
    (hmin : match a.min_price with | some m => m ≤ payAmt | none => True)
    (hbuy : match a.buy_price with | some bp => payAmt < bp | none => True)
    (hhb : match a.highest_bid with | some b => b.vault < payAmt | none => True) :
    NftMarketplace.bid c s bidder nft XTR2 payAmt
      = ({ s with
            auctions := updA s.auctions nft
              { a with highest_bid := some { bidder_account := bidder, vault := payAmt } },
            accounts := match a.highest_bid with
                        | some b => depositXtr s.accounts b.bidder_account b.vault
                        | none => s.accounts }, none) := by
  have hminb : (match a.min_price with | some m => decide (payAmt < m) | none => false)
      = false := by
    rcases hm2 : a.min_price with _ | m
    · rfl
    · rw [hm2] at hmin
      simp only [decide_eq_false_iff_not]
      exact not_lt.mpr hmin
  unfold NftMarketplace.bid NftMarketplace.bid_raw NftMarketplace.bid_record
    NftMarketplace.bid_buy_check
  rw [hl]
  rcases hb2 : a.highest_bid with _ | b
  · rcases hbp2 : a.buy_price with _ | bp
    · simp [hep, hacct, hminb, hb2, hbp2]
    · rw [hbp2] at hbuy
      simp [hep, hacct, hminb, hb2, hbp2, le_of_lt hbuy, ne_of_lt hbuy]
  · simp only [hb2] at hhb
    rcases hbp2 : a.buy_price with _ | bp
    · simp [hep, hacct, hminb, hb2, hbp2, hhb, not_le.mpr hhb]
    · rw [hbp2] at hbuy
      simp [hep, hacct, hminb, hb2, hbp2, hhb, not_le.mpr hhb, le_of_lt hbuy, ne_of_lt hbuy]

/-- The last element of a list, with a default for the empty list. -/
def lastD (d : Addr × Nat) : List (Addr × Nat) → Addr × Nat
  | [] => d
  | x :: rest => lastD x rest

/-- Apply a list of refunds (`deposit` calls) to the accounts ledger in
order. -/
def refundAll (accs : Addr → Account) : List (Addr × Nat) → (Addr → Account)
  | [] => accs
  | (who, amt) :: rest => refundAll (depositXtr accs who amt) rest

/-- A bid chain is valid over a standing escrow `prev`: amounts strictly
increase, each meets the minimum price and stays strictly below the buy
price (so no bid triggers buy-now settlement). -/
def ChainOk (minP buyP : Option Nat) : Nat → List (Addr × Nat) → Prop
  | _, [] => True
  | prev, (_, amt) :: rest =>
      prev < amt ∧
      (match minP with | some m => m ≤ amt | none => True) ∧
      (match buyP with | some bp => amt < bp | none => True) ∧
      ChainOk minP buyP amt rest

/-- A bid chain starting on an auction with no standing bid. -/
def ChainOkN (minP buyP : Option Nat) : List (Addr × Nat) → Prop
  | [] => True
  | (_, amt) :: rest =>
      (match minP with | some m => m ≤ amt | none => True) ∧
      (match buyP with | some bp => amt < bp | none => True) ∧
      ChainOk minP buyP amt rest

/-- Run a list of `bid` calls on one auction, stopping at the first
panic; a `none` second component certifies every bid was accepted. -/
def runBidsE (c : Ctx) (nft : NftAddress) :
    List (Addr × Nat) → MarketState → MarketState × Option String
  | [], s => (s, none)
  | (bidder, amt) :: rest, s =>
      match NftMarketplace.bid c s bidder nft XTR2 amt with
      | (s', none) => runBidsE c nft rest s'
      | (s', some e) => (s', some e)

/-- Characterization of a full accepted bid chain over a standing bid
`⟨w, v⟩`: every bid is accepted, the final bid slot holds exactly the
last bid, and the accounts ledger has received exactly one refund per
outbid bidder (the standing bidder and all chain bidders but the last),
each for the full escrowed amount, in outbid order. -/
theorem runBidsE_char (c : Ctx) (nft : NftAddress) (bids : List (Addr × Nat))
    (s : MarketState) (a : Auction) (w : Addr) (v : Nat)
    (hl : lookupA s.auctions nft = some a)
    (hhb : a.highest_bid = some ⟨w, v⟩)
    (hep : c.epoch < a.ending_epoch)
    (hacct : ∀ p ∈ bids, c.isAccount p.1 = true)
    (hchain : ChainOk a.min_price a.buy_price v bids) :
    runBidsE c nft bids s
      = ({ s with
            auctions := updA s.auctions nft
              { a with highest_bid := some ⟨(lastD (w, v) bids).1, (lastD (w, v) bids).2⟩ },
            accounts := refundAll s.accounts (((w, v) :: bids).dropLast) }, none) := by
  induction bids generalizing s a w v with
  | nil =>
    simp only [runBidsE, lastD, List.dropLast, refundAll]
    have h1 : ({ a with highest_bid := some ⟨w, v⟩ } : Auction) = a := by
      rw [← hhb]
    rw [h1, updA_self s.auctions nft a hl]
  | cons p rest ih =>
    obtain ⟨bidder, amt⟩ := p
    obtain ⟨hprev, hmin, hbuy, hrest⟩ := hchain
    have hstep := bid_step_full c s bidder nft amt a hl hep
      (hacct (bidder, amt) (by simp))
      (by rcases hm : a.min_price with _ | m
          · trivial
          · rw [hm] at hmin; exact hmin)
      (by rcases hb : a.buy_price with _ | bp
          · trivial
          · rw [hb] at hbuy; exact hbuy)
      (by rw [hhb]; exact hprev)
    have hstep2 : NftMarketplace.bid c s bidder nft XTR2 amt
        = ({ s with
              auctions := updA s.auctions nft
                { a with highest_bid := some { bidder_account := bidder, vault := amt } },
              accounts := depositXtr s.accounts w v }, none) := by
      rw [hstep, hhb]
    have hgoal : runBidsE c nft ((bidder, amt) :: rest) s
        = runBidsE c nft rest
            { s with
                auctions := updA s.auctions nft
                  { a with highest_bid := some { bidder_account := bidder, vault := amt } },
                accounts := depositXtr s.accounts w v } := by
      conv_lhs => rw [runBidsE]
      rw [hstep2]
    have hl2 : lookupA
        (updA s.auctions nft
          { a with highest_bid := some { bidder_account := bidder, vault := amt } }) nft
        = some { a with highest_bid := some { bidder_account := bidder, vault := amt } } := by
      rw [lookupA_updA]
      simp
    have hrec := ih
      { s with
          auctions := updA s.auctions nft
            { a with highest_bid := some { bidder_account := bidder, vault := amt } },
          accounts := depositXtr s.accounts w v }
      { a with highest_bid := some { bidder_account := bidder, vault := amt } }
      bidder amt hl2 rfl hep
      (fun p hp => hacct p (List.mem_cons_of_mem _ hp)) hrest
    rw [hgoal, hrec]
    simp only [updA_updA]
    rfl

/-- Chain characterization from an auction with an empty bid slot: the
first bid is escrowed without any refund, then the chain proceeds. -/
theorem runBidsE_none_char (c : Ctx) (nft : NftAddress) (bidder0 : Addr) (amt0 : Nat)
    (rest : List (Addr × Nat)) (s : MarketState) (a : Auction)
    (hl : lookupA s.auctions nft = some a)
    (hhb : a.highest_bid = none)
    (hep : c.epoch < a.ending_epoch)
    (hacct : ∀ p ∈ (bidder0, amt0) :: rest, c.isAccount p.1 = true)
    (hchain : ChainOkN a.min_price a.buy_price ((bidder0, amt0) :: rest)) :
    runBidsE c nft ((bidder0, amt0) :: rest) s
      = ({ s with
            auctions := updA s.auctions nft
              { a with highest_bid := some ⟨(lastD (bidder0, amt0) rest).1,
                                            (lastD (bidder0, amt0) rest).2⟩ },
            accounts := refundAll s.accounts (((bidder0, amt0) :: rest).dropLast) }, none) := by
  obtain ⟨hmin, hbuy, hrest⟩ := hchain
  have hstep := bid_step_full c s bidder0 nft amt0 a hl hep
    (hacct (bidder0, amt0) (by simp))
    (by rcases hm : a.min_price with _ | m
        · trivial
        · rw [hm] at hmin; exact hmin)
    (by rcases hb : a.buy_price with _ | bp
        · trivial
        · rw [hb] at hbuy; exact hbuy)
    (by rw [hhb]; trivial)
  have hstep2 : NftMarketplace.bid c s bidder0 nft XTR2 amt0
      = ({ s with
            auctions := updA s.auctions nft
              { a with highest_bid := some { bidder_account := bidder0, vault := amt0 } } },
         none) := by
    rw [hstep, hhb]
  have hgoal : runBidsE c nft ((bidder0, amt0) :: rest) s
      = runBidsE c nft rest
          { s with
              auctions := updA s.auctions nft
                { a with highest_bid := some { bidder_account := bidder0, vault := amt0 } } } := by
    conv_lhs => rw [runBidsE]
    rw [hstep2]
  have hl2 : lookupA
      (updA s.auctions nft
        { a with highest_bid := some { bidder_account := bidder0, vault := amt0 } }) nft
      = some { a with highest_bid := some { bidder_account := bidder0, vault := amt0 } } := by
    rw [lookupA_updA]
    simp
  have hrec := runBidsE_char c nft rest
    { s with
        auctions := updA s.auctions nft
          { a with highest_bid := some { bidder_account := bidder0, vault := amt0 } } }
    { a with highest_bid := some { bidder_account := bidder0, vault := amt0 } }
    bidder0 amt0 hl2 rfl hep
    (fun p hp => hacct p (List.mem_cons_of_mem _ hp)) hrest
  rw [hgoal, hrec]
  simp only [updA_updA]

/-- Validity of a bid chain is preserved by taking a prefix. -/
theorem ChainOk_take (minP buyP : Option Nat) (l : List (Addr × Nat)) (prev n : Nat)
    (h : ChainOk minP buyP prev l) : ChainOk minP buyP prev (l.take n) := by
  induction l generalizing prev n with
  | nil => simp [ChainOk]
  | cons p rest ih =>
    obtain ⟨who, amt⟩ := p
    obtain ⟨h1, h2, h3, h4⟩ := h
    cases n with
    | zero => trivial
    | succ n => exact ⟨h1, h2, h3, ih amt n h4⟩

/-- Validity of a bid chain from an empty slot is preserved by prefixes. -/
theorem ChainOkN_take (minP buyP : Option Nat) (l : List (Addr × Nat)) (n : Nat)
    (h : ChainOkN minP buyP l) : ChainOkN minP buyP (l.take n) := by
  cases l with
  | nil => simp [ChainOkN]
  | cons p rest =>
    obtain ⟨who, amt⟩ := p
    obtain ⟨h1, h2, h3⟩ := h
    cases n with
    | zero => trivial
    | succ n => exact ⟨h1, h2, ChainOk_take _ _ _ _ _ h3⟩

/-- The last element of a one-longer prefix is the indexed element. -/
theorem lastD_take (l : List (Addr × Nat)) (i : Nat) (hi : i < l.length)
    (d : Addr × Nat) : lastD d (l.take (i + 1)) = l.get ⟨i, hi⟩ := by
  induction l generalizing i d with
  | nil => simp at hi
  | cons x rest ih =>
    cases i with
    | zero =>
      cases rest <;> simp [lastD]
    | succ i =>
      have hi2 : i < rest.length := by simpa using hi
      simpa [lastD] using ih i hi2 x

/-- Dropping the last element of a one-longer prefix gives the shorter
prefix. -/
theorem take_succ_dropLast (l : List (Addr × Nat)) (i : Nat) (hi : i < l.length) :
    (l.take (i + 1)).dropLast = l.take i := by
  rw [List.dropLast_eq_take]
  rw [List.take_take, List.length_take]
  congr 1
  omega

/-- Refunds to other accounts do not change an account. -/
theorem refundAll_ne (l : List (Addr × Nat)) (accs : Addr → Account) (x : Addr)
    (hx : ∀ p ∈ l, p.1 ≠ x) : refundAll accs l x = accs x := by
  induction l generalizing accs with
  | nil => rfl
  | cons p rest ih =>
    obtain ⟨who, amt⟩ := p
    have h1 : x ≠ who := fun h => hx (who, amt) (by simp) (by simp [h])
    unfold refundAll
    rw [ih _ (fun q hq => hx q (List.mem_cons_of_mem _ hq)), depositXtr_ne _ _ _ _ h1]

/-- With pairwise-distinct recipients, each refunded account receives
exactly its own listed amount. -/
theorem refundAll_get_xtr (l : List (Addr × Nat)) (accs : Addr → Account)
    (hd : l.Pairwise (fun p q => p.1 ≠ q.1)) (j : Nat) (hj : j < l.length) :
    ((refundAll accs l) (l.get ⟨j, hj⟩).1).xtr
      = (accs (l.get ⟨j, hj⟩).1).xtr + (l.get ⟨j, hj⟩).2 := by
  induction l generalizing accs j with
  | nil => simp at hj
  | cons p rest ih =>
    obtain ⟨who, amt⟩ := p
    rw [List.pairwise_cons] at hd
    cases j with
    | zero =>
      unfold refundAll
      have hne : ∀ q ∈ rest, q.1 ≠ who := fun q hq => (hd.1 q hq).symm
      simp only [List.get]
      rw [refundAll_ne rest _ who hne, depositXtr_self]
    | succ j =>
      have hj2 : j < rest.length := by simpa using hj
      have hkey : ((who, amt) :: rest).get ⟨j + 1, hj⟩ = rest.get ⟨j, hj2⟩ := rfl
      rw [hkey]
      unfold refundAll
      have := ih (depositXtr accs who amt) hd.2 j hj2
      rw [this]
      have hne : (rest.get ⟨j, hj2⟩).1 ≠ who := by
        intro h
        exact hd.1 _ (rest.get_mem _ _) h.symm
      rw [depositXtr_ne _ _ _ _ hne]

/-! ## Concrete scenarios used by the claims -/

/-- A call context at a given epoch in which every address is an account. -/
def atEpoch (e : Nat) : Ctx := ⟨e, fun _ => true⟩

/-- The concrete NFT put under auction in the scenarios. -/
def theNft : NftAddress := ⟨2, 5⟩

/-- C1 scenario: auction created at epoch 0 with period 5, one bid of 100. -/
def c1_s1 : MarketState :=
  (NftMarketplace.start_auction (atEpoch 0) NftMarketplace.new true 2 5 1 10 none none 5 0).1

def c1_s2 : MarketState := (NftMarketplace.bid (atEpoch 0) c1_s1 11 theNft XTR2 100).1

def c1_s3 : MarketState := (NftMarketplace.finish_auction (atEpoch 5) c1_s2 theNft).1

/-- C1: on a live auction (created at epoch 0 with period 5, one bid of
100), `finish` at epoch 3 fails with "Auction is still in progress" and
changes nothing; `finish` at epoch 5 succeeds and drains both vaults,
delivering the item to the bidder and the payment to the seller; but a
second `finish` at epoch 5 is NOT rejected — it silently succeeds again,
contradicting the idempotence guard the claim requires. -/
theorem C1_finish_scenario :
    (NftMarketplace.start_auction (atEpoch 0) NftMarketplace.new true 2 5 1 10 none none 5 0).2
        = none
    ∧ (NftMarketplace.bid (atEpoch 0) c1_s1 11 theNft XTR2 100).2 = none
    ∧ (NftMarketplace.finish_auction (atEpoch 3) c1_s2 theNft).2
        = some "Auction is still in progress"
    ∧ (NftMarketplace.finish_auction (atEpoch 3) c1_s2 theNft).1 = c1_s2
    ∧ (NftMarketplace.finish_auction (atEpoch 5) c1_s2 theNft).2 = none
    ∧ lookupA c1_s3.auctions theNft
        = some { vault := 0, seller_address := 10, min_price := none, buy_price := none,
                 highest_bid := some { bidder_account := 11, vault := 0 }, ending_epoch := 5 }
    ∧ (c1_s3.accounts 11).nfts theNft = 1
    ∧ (c1_s3.accounts 10).xtr = 100
    ∧ (NftMarketplace.finish_auction (atEpoch 5) c1_s3 theNft).2 = none := by
  refine ⟨by decide, by decide, by decide, rfl, by decide, by decide, by decide, by decide,
    by decide⟩

/-- C2 scenario: auction with buy price 100, settled by a buy-now bid. -/
def c2_s1 : MarketState :=
  (NftMarketplace.start_auction (atEpoch 0) NftMarketplace.new true 2 5 1 10 none (some 100) 10 0).1

def c2_s2 : MarketState := (NftMarketplace.bid (atEpoch 0) c2_s1 11 theNft XTR2 100).1

/-- C2: a bid equal to the buy price settles the auction inside the call
(item to bidder 11, payment to the seller); yet a later bid of 50 by
bidder 12, still before `ending_epoch`, is ACCEPTED, escrowing 50
against an empty item vault — the code has no post-settlement guard,
contradicting the claim. -/
theorem C2_post_settlement_bid_accepted :
    (NftMarketplace.bid (atEpoch 0) c2_s1 11 theNft XTR2 100).2 = none
    ∧ lookupA c2_s2.auctions theNft
        = some { vault := 0, seller_address := 10, min_price := none, buy_price := some 100,
                 highest_bid := some { bidder_account := 11, vault := 0 }, ending_epoch := 10 }
    ∧ (c2_s2.accounts 11).nfts theNft = 1
    ∧ (c2_s2.accounts 10).xtr = 100
    ∧ (NftMarketplace.bid (atEpoch 1) c2_s2 12 theNft XTR2 50).2 = none
    ∧ lookupA ((NftMarketplace.bid (atEpoch 1) c2_s2 12 theNft XTR2 50).1).auctions theNft
        = some { vault := 0, seller_address := 10, min_price := none, buy_price := some 100,
                 highest_bid := some { bidder_account := 12, vault := 50 }, ending_epoch := 10 } := by
  decide

/-- C3 scenario: auction with period 10, one bid of 100, finished at
epoch 10. -/
def c3_s1 : MarketState :=
  (NftMarketplace.start_auction (atEpoch 0) NftMarketplace.new true 2 5 1 10 none none 10 0).1

def c3_s2 : MarketState := (NftMarketplace.bid (atEpoch 0) c3_s1 11 theNft XTR2 100).1

def c3_s3 : MarketState := (NftMarketplace.finish_auction (atEpoch 10) c3_s2 theNft).1

/-- C3 counterexample: a reachable observation point where `highest_bid`
is present but its payment vault holds 0, not the amount (100) of the
most recent accepted bid: after a successful `finish` the bid slot is
not cleared and its vault is drained. -/
theorem C3_counterexample :
    (NftMarketplace.bid (atEpoch 0) c3_s1 11 theNft XTR2 100).2 = none
    ∧ (NftMarketplace.finish_auction (atEpoch 10) c3_s2 theNft).2 = none
    ∧ lookupA c3_s3.auctions theNft
        = some { vault := 0, seller_address := 10, min_price := none, buy_price := none,
                 highest_bid := some { bidder_account := 11, vault := 0 }, ending_epoch := 10 }
    ∧ (0 : Nat) ≠ 100 := by
  decide

/-- C3 (amended): along every trace of marketplace calls from `new`,
the item vault of every auction holds at most one unit, and the bid slot
agrees with the ghost tracker: present exactly when the tracker is,
holding exactly the most recent accepted bid — or 0 once a settlement
has drained it — never a stale earlier amount and never funds of two
bidders at once. -/
theorem C3_amended_custody (evs : List Event) :
    InvC3 (runTrace evs (NftMarketplace.new, fun _ => none)).1
          (runTrace evs (NftMarketplace.new, fun _ => none)).2 :=
  invC3_runTrace evs NftMarketplace.new (fun _ => none) invC3_new

/-- C4 scenario: auction with buy price 100. -/
def c4_s1 : MarketState :=
  (NftMarketplace.start_auction (atEpoch 0) NftMarketplace.new true 2 5 1 10 none (some 100) 10 0).1

/-- C4 counterexample: the single-bid chain `[100]` satisfies the
claim's hypotheses (no minimum, bid ≤ buy_price = 100), the bid is
accepted, but afterwards the bid vault of the auction holds 0, not 100 — the
call hit the buy price and settled. -/
theorem C4_counterexample :
    (NftMarketplace.bid (atEpoch 0) c4_s1 11 theNft XTR2 100).2 = none
    ∧ lookupA ((NftMarketplace.bid (atEpoch 0) c4_s1 11 theNft XTR2 100).1).auctions theNft
        = some { vault := 0, seller_address := 10, min_price := none, buy_price := some 100,
                 highest_bid := some { bidder_account := 11, vault := 0 }, ending_epoch := 10 }
    ∧ (0 : Nat) ≠ 100 := by
  decide

/-- C6 scenario: auction with buy price 100 and a standing bid of 50 by
bidder 11. -/
def c6_s1 : MarketState :=
  (NftMarketplace.start_auction (atEpoch 0) NftMarketplace.new true 2 5 1 10 none (some 100) 10 0).1

def c6_s2 : MarketState := (NftMarketplace.bid (atEpoch 0) c6_s1 11 theNft XTR2 50).1

/-- C6 counterexample: a bid of 150 (above the buy price 100) fails, but
in the raw (pre-rollback) execution the refund of the previous bidder
and the replacement of `highest_bid` have already happened when the
buy-price check fires: the validation does NOT occur strictly before
every mutation. Only the transactional rollback of the ledger (the `bid`
wrapper) restores the state. -/
theorem C6_counterexample :
    (NftMarketplace.bid_raw (atEpoch 1) c6_s2 12 theNft XTR2 150).2
        = some "Payment exceeds the buying price"
    ∧ (((NftMarketplace.bid_raw (atEpoch 1) c6_s2 12 theNft XTR2 150).1).accounts 11).xtr = 50
    ∧ lookupA ((NftMarketplace.bid_raw (atEpoch 1) c6_s2 12 theNft XTR2 150).1).auctions theNft
        = some { vault := 1, seller_address := 10, min_price := none, buy_price := some 100,
                 highest_bid := some { bidder_account := 12, vault := 150 }, ending_epoch := 10 }
    ∧ (NftMarketplace.bid (atEpoch 1) c6_s2 12 theNft XTR2 150).1 = c6_s2 := by
  refine ⟨by decide, by decide, by decide, rfl⟩

/-- C8 scenario: auction with period 10 (badge id 0 minted at creation),
a standing bid of 100, cancelled by the seller at epoch 1. -/
def c8_s1 : MarketState :=
  (NftMarketplace.start_auction (atEpoch 0) NftMarketplace.new true 2 5 1 10 none none 10 0).1

def c8_s2 : MarketState := (NftMarketplace.bid (atEpoch 0) c8_s1 11 theNft XTR2 100).1

def c8_s3 : MarketState := (NftMarketplace.cancel_auction (atEpoch 1) c8_s2 1 0).1

/-- A template-variant auction holding its item, with a standing bid of
100 and badge resource 7 alive. -/
def c8_tpl : TplState where
  seller_badge_resource := 7
  vault := 1
  nft := theNft
  seller_address := 10
  min_price := none
  buy_price := none
  highest_bid := some { bidder_account := 11, vault := 100 }
  ending_epoch := 10
  badgeMintRule := .denyAll
  badgeAlive := true
  accounts := fun _ => { xtr := 0, nfts := fun _ => 0 }

/-- C8: in the registry variant a successful `cancel_auction` refunds
the bidder (100) and returns the item to the seller, but the badge is
NOT burned (`badgeAlive` still true — the source only has a TODO at
lib.rs:303), and presenting the same badge again authorizes a second
successful cancellation, contradicting the claim. The template variant
(`Auction::cancel`, lib.rs:221) does burn its badge. -/
theorem C8_badge_not_burned :
    (NftMarketplace.cancel_auction (atEpoch 1) c8_s2 1 0).2 = none
    ∧ (c8_s3.accounts 11).xtr = 100
    ∧ (c8_s3.accounts 10).nfts theNft = 1
    ∧ c8_s3.badgeAlive 0 = true
    ∧ (NftMarketplace.cancel_auction (atEpoch 2) c8_s3 1 0).2 = none
    ∧ (TplAuction.cancel (atEpoch 1) c8_tpl 7).2 = none
    ∧ ((TplAuction.cancel (atEpoch 1) c8_tpl 7).1).badgeAlive = false := by
  decide

/-- C9 scenario: one auction started from the fresh marketplace. -/
def c9_s1 : MarketState :=
  (NftMarketplace.start_auction (atEpoch 0) NftMarketplace.new true 2 5 1 10 none none 10 0).1

/-- C9: a successful `start_auction` stores exactly one unit of the item
and mints exactly one badge (id 0) bound to it — but the registry
variant builds the badge resource with `mintable(AccessRule::AllowAll)`
(source lib.rs:96), so the host permits ANY caller to mint, and an
external mint of a second badge (id 1) bound to the same auction
succeeds, contradicting the deny-all minting policy of the claim. The
template variant (`Auction::new`, lib.rs:103) does use `DenyAll`. -/
theorem C9_mint_policy :
    (NftMarketplace.start_auction (atEpoch 0) NftMarketplace.new true 2 5 1 10 none none 10 0).2
        = none
    ∧ lookupA c9_s1.auctions theNft
        = some { vault := 1, seller_address := 10, min_price := none, buy_price := none,
                 highest_bid := none, ending_epoch := 10 }
    ∧ c9_s1.badgeMeta 0 = some theNft
    ∧ c9_s1.badgeAlive 0 = true
    ∧ c9_s1.badgeMeta 1 = none
    ∧ c9_s1.badgeAlive 1 = false
    ∧ NftMarketplace.new.badgeMintRule = AccessRule.allowAll
    ∧ mintAllowed c9_s1.badgeMintRule = true
    ∧ (NftMarketplace.external_mint c9_s1 1 theNft).2 = none
    ∧ ((NftMarketplace.external_mint c9_s1 1 theNft).1).badgeMeta 1 = some theNft
    ∧ TplAuction.newBadgeMintRule = AccessRule.denyAll
    ∧ mintAllowed TplAuction.newBadgeMintRule = false := by
  decide

/-- C10 scenario: auction started at epoch 2^64 - 1 with period 1; the
u64 sum wraps to 0. -/
def c10_s1 : MarketState :=
  (NftMarketplace.start_auction (atEpoch (2 ^ 64 - 1)) NftMarketplace.new
    true 2 5 1 10 none none 1 0).1

/-- C10: `ending_epoch = (current_epoch + epoch_period) % 2^64` wraps:
starting an auction at epoch 2^64 - 1 with period 1 yields
`ending_epoch = 0 < current_epoch`, on which bidding and cancellation
fail immediately ("Auction has expired" / "Auction has ended") while
`finish` succeeds immediately. -/
theorem C10_epoch_wrap :
    (NftMarketplace.start_auction (atEpoch (2 ^ 64 - 1)) NftMarketplace.new
        true 2 5 1 10 none none 1 0).2 = none
    ∧ lookupA c10_s1.auctions theNft
        = some { vault := 1, seller_address := 10, min_price := none, buy_price := none,
                 highest_bid := none, ending_epoch := 0 }
    ∧ (0 : Nat) < 2 ^ 64 - 1
    ∧ (NftMarketplace.bid (atEpoch (2 ^ 64 - 1)) c10_s1 11 theNft XTR2 100).2
        = some "Auction has expired"
    ∧ (NftMarketplace.cancel_auction (atEpoch (2 ^ 64 - 1)) c10_s1 1 0).2
        = some "Auction has ended"
    ∧ (NftMarketplace.finish_auction (atEpoch (2 ^ 64 - 1)) c10_s1 theNft).2 = none := by
  decide

/-- C6 (amended): every `bid` call that fails a precondition aborts with
an error and — through the transactional rollback of the ledger, which the
`bid` wrapper models — leaves all state unchanged. (The check-ordering
part of the claim is refuted by the counterexample: the buy-price check
runs after the refund/replace mutations.) -/
theorem C6_amended_rollback (c : Ctx) (s : MarketState) (bidder : Addr) (nft : NftAddress)
    (payRes : ResAddr) (payAmt : Nat) (e : String)
    (h : (NftMarketplace.bid c s bidder nft payRes payAmt).2 = some e) :
    (NftMarketplace.bid c s bidder nft payRes payAmt).1 = s := by
  apply bid_err
  rw [h]
  simp

/-- Witness for the rollback theorem: bidding on a nonexistent auction
in the fresh marketplace fails and leaves the state unchanged. -/
theorem C6_amended_rollback_witness :
    (NftMarketplace.bid (atEpoch 0) NftMarketplace.new 11 theNft XTR2 100).2
        = some "Auction does not exist"
    ∧ (NftMarketplace.bid (atEpoch 0) NftMarketplace.new 11 theNft XTR2 100).1
        = NftMarketplace.new :=
  ⟨by decide,
   C6_amended_rollback (atEpoch 0) NftMarketplace.new 11 theNft XTR2 100
     "Auction does not exist" (by decide)⟩

/-- C5: on an auction still holding its item, a bid exactly equal to the
buy price settles inside the same `bid` call, whatever the remaining
epochs: the call succeeds, the item lands in the account of the bidder, the
full payment lands in the account of the seller, and both the item vault and
the escrow vault are left empty. -/
theorem C5_buy_now_settles (c : Ctx) (s : MarketState) (bidder : Addr) (nft : NftAddress)
    (bp : Nat) (a : Auction)
    (hl : lookupA s.auctions nft = some a)
    (hvault : a.vault = 1)
    (hbp : a.buy_price = some bp)
    (hep : c.epoch < a.ending_epoch)
    (hacct : c.isAccount bidder = true)
    (hmin : match a.min_price with | some m => m ≤ bp | none => True)
    (hhb : match a.highest_bid with
           | some b => b.vault < bp ∧ b.bidder_account ≠ a.seller_address
           | none => True) :
    (NftMarketplace.bid c s bidder nft XTR2 bp).2 = none
    ∧ (((NftMarketplace.bid c s bidder nft XTR2 bp).1).accounts bidder).nfts nft
        = (s.accounts bidder).nfts nft + 1
    ∧ (((NftMarketplace.bid c s bidder nft XTR2 bp).1).accounts a.seller_address).xtr
        = (s.accounts a.seller_address).xtr + bp
    ∧ lookupA ((NftMarketplace.bid c s bidder nft XTR2 bp).1).auctions nft
        = some { a with vault := 0,
                        highest_bid := some { bidder_account := bidder, vault := 0 } } := by
  have hminb : (match a.min_price with | some m => decide (bp < m) | none => false)
      = false := by
    rcases hm2 : a.min_price with _ | m
    · rfl
    · rw [hm2] at hmin
      simp only [decide_eq_false_iff_not]
      exact not_lt.mpr hmin
  have hres : NftMarketplace.bid c s bidder nft XTR2 bp
      = ({ s with
            auctions := updA s.auctions nft
              { a with vault := 0,
                       highest_bid := some { bidder_account := bidder, vault := 0 } },
            accounts := depositXtr
              (depositNft (match a.highest_bid with
                           | some b => depositXtr s.accounts b.bidder_account b.vault
                           | none => s.accounts) bidder nft a.vault)
              a.seller_address bp }, none) := by
    unfold NftMarketplace.bid NftMarketplace.bid_raw NftMarketplace.bid_record
      NftMarketplace.bid_buy_check NftMarketplace.process_auction_payments
    rw [hl]
    rcases hb2 : a.highest_bid with _ | b
    · simp [hep, hacct, hminb, hb2, hbp, lookupA_updA, updA_updA]
    · simp only [hb2] at hhb
      obtain ⟨hv, hw⟩ := hhb
      simp [hep, hacct, hminb, hb2, hbp, not_le.mpr hv, lookupA_updA, updA_updA]
  refine ⟨by rw [hres], ?_, ?_, ?_⟩
  · rw [hres]
    show ((depositXtr (depositNft _ bidder nft a.vault) a.seller_address bp
        : Addr → Account) bidder).nfts nft = (s.accounts bidder).nfts nft + 1
    rw [depositXtr_nfts, depositNft_self, hvault]
    rcases hb2 : a.highest_bid with _ | b
    · rfl
    · show ((depositXtr s.accounts b.bidder_account b.vault) bidder).nfts nft + 1
          = (s.accounts bidder).nfts nft + 1
      rw [depositXtr_nfts]
  · rw [hres]
    show ((depositXtr (depositNft _ bidder nft a.vault) a.seller_address bp
        : Addr → Account) a.seller_address).xtr = (s.accounts a.seller_address).xtr + bp
    rw [depositXtr_self, depositNft_xtr]
    rcases hb2 : a.highest_bid with _ | b
    · rfl
    · simp only [hb2] at hhb
      show ((depositXtr s.accounts b.bidder_account b.vault) a.seller_address).xtr + bp
          = (s.accounts a.seller_address).xtr + bp
      rw [depositXtr_ne _ _ _ _ (Ne.symm hhb.2)]
  · rw [hres]
    show lookupA (updA s.auctions nft _) nft = _
    rw [lookupA_updA]
    simp

/-- C5 witness scenario: fresh auction with buy price 100. -/
def c5_s1 : MarketState :=
  (NftMarketplace.start_auction (atEpoch 0) NftMarketplace.new true 2 5 1 10 none (some 100) 10 0).1

/-- Witness for the buy-now theorem at a concrete input: a bid of
exactly 100 at epoch 0 (nine epochs before expiry) settles at once. -/
theorem C5_buy_now_settles_witness :
    lookupA c5_s1.auctions theNft
        = some { vault := 1, seller_address := 10, min_price := none, buy_price := some 100,
                 highest_bid := none, ending_epoch := 10 }
    ∧ ((NftMarketplace.bid (atEpoch 0) c5_s1 11 theNft XTR2 100).2 = none
       ∧ (((NftMarketplace.bid (atEpoch 0) c5_s1 11 theNft XTR2 100).1).accounts 11).nfts theNft
           = (c5_s1.accounts 11).nfts theNft + 1
       ∧ (((NftMarketplace.bid (atEpoch 0) c5_s1 11 theNft XTR2 100).1).accounts 10).xtr
           = (c5_s1.accounts 10).xtr + 100
       ∧ lookupA ((NftMarketplace.bid (atEpoch 0) c5_s1 11 theNft XTR2 100).1).auctions theNft
           = some { vault := 0, seller_address := 10, min_price := none, buy_price := some 100,
                    highest_bid := some { bidder_account := 11, vault := 0 },
                    ending_epoch := 10 }) :=
  ⟨by decide,
   C5_buy_now_settles (atEpoch 0) c5_s1 11 theNft 100
     { vault := 1, seller_address := 10, min_price := none, buy_price := some 100,
       highest_bid := none, ending_epoch := 10 }
     (by decide) rfl rfl (by decide) rfl trivial trivial⟩

/-- C7: for an auction reachable through a badge (badge metadata bound
to it) that still holds its item: a badge bucket of any other resource
always fails with no state change; the correct badge before
`ending_epoch` always succeeds, refunding the full standing bid (if
any) to its bidder and depositing the item into the account of the seller;
and the correct badge at or after `ending_epoch` always fails. -/
theorem C7_cancel_behavior (c : Ctx) (s : MarketState) (badgeId : Nat) (nft : NftAddress)
    (a : Auction)
    (hm : s.badgeMeta badgeId = some nft)
    (hl : lookupA s.auctions nft = some a)
    (hvault : a.vault = 1) :
    (∀ br, br ≠ s.seller_badge_resource →
        NftMarketplace.cancel_auction c s br badgeId
          = (s, some "Invalid seller badge resource"))
    ∧ (c.epoch < a.ending_epoch →
        (NftMarketplace.cancel_auction c s s.seller_badge_resource badgeId).2 = none
        ∧ (match a.highest_bid with
           | some b =>
             (((NftMarketplace.cancel_auction c s s.seller_badge_resource badgeId).1).accounts
                 b.bidder_account).xtr
               = (s.accounts b.bidder_account).xtr + b.vault
           | none => True)
        ∧ (((NftMarketplace.cancel_auction c s s.seller_badge_resource badgeId).1).accounts
              a.seller_address).nfts nft
            = (s.accounts a.seller_address).nfts nft + 1
        ∧ lookupA ((NftMarketplace.cancel_auction c s s.seller_badge_resource badgeId).1).auctions
              nft
            = some { a with vault := 0, highest_bid := none })
    ∧ (a.ending_epoch ≤ c.epoch →
        NftMarketplace.cancel_auction c s s.seller_badge_resource badgeId
          = (s, some "Auction has ended")) := by
  refine ⟨?_, ?_, ?_⟩
  · intro br hbr
    unfold NftMarketplace.cancel_auction
    rw [if_pos hbr]
  · intro hep
    have hres : NftMarketplace.cancel_auction c s s.seller_badge_resource badgeId
        = ({ s with
              auctions := updA s.auctions nft { a with vault := 0, highest_bid := none },
              accounts := depositNft
                (match a.highest_bid with
                 | some b => depositXtr s.accounts b.bidder_account b.vault
                 | none => s.accounts) a.seller_address nft a.vault }, none) := by
      unfold NftMarketplace.cancel_auction NftMarketplace.process_auction_payments
      rcases hb2 : a.highest_bid with _ | b
      · simp [hm, hl, hep, hb2, lookupA_updA, updA_updA]
      · simp [hm, hl, hep, hb2, lookupA_updA, updA_updA]
    refine ⟨by rw [hres], ?_, ?_, ?_⟩
    · rcases hb2 : a.highest_bid with _ | b
      · trivial
      · rw [hb2] at hres
        rw [hres]
        show ((depositNft (depositXtr s.accounts b.bidder_account b.vault)
            a.seller_address nft a.vault) b.bidder_account).xtr
          = (s.accounts b.bidder_account).xtr + b.vault
        rw [depositNft_xtr, depositXtr_self]
    · rcases hb2 : a.highest_bid with _ | b
      · rw [hb2] at hres
        rw [hres]
        show ((depositNft s.accounts a.seller_address nft a.vault) a.seller_address).nfts nft
          = (s.accounts a.seller_address).nfts nft + 1
        rw [depositNft_self, hvault]
      · rw [hb2] at hres
        rw [hres]
        show ((depositNft (depositXtr s.accounts b.bidder_account b.vault)
            a.seller_address nft a.vault) a.seller_address).nfts nft
          = (s.accounts a.seller_address).nfts nft + 1
        rw [depositNft_self, depositXtr_nfts, hvault]
    · rw [hres]
      show lookupA (updA s.auctions nft { a with vault := 0, highest_bid := none }) nft = _
      rw [lookupA_updA]
      simp
  · intro hle
    unfold NftMarketplace.cancel_auction
    simp [hm, hl, not_lt.mpr hle]

/-- C7 witness scenario: auction with period 10 (badge id 0), standing
bid of 100 by bidder 11. -/
def c7_s1 : MarketState :=
  (NftMarketplace.start_auction (atEpoch 0) NftMarketplace.new true 2 5 1 10 none none 10 0).1

def c7_s2 : MarketState := (NftMarketplace.bid (atEpoch 0) c7_s1 11 theNft XTR2 100).1

/-- Witness for the cancellation theorem at a concrete input: wrong
badge resource (9) fails; the correct badge (resource 1) at epoch 1
succeeds, refunds bidder 11 exactly 100 and hands the item to seller
10; at epoch 10 (expiry) it fails. -/
theorem C7_cancel_behavior_witness :
    NftMarketplace.cancel_auction (atEpoch 1) c7_s2 9 0
        = (c7_s2, some "Invalid seller badge resource")
    ∧ (NftMarketplace.cancel_auction (atEpoch 1) c7_s2 1 0).2 = none
    ∧ (((NftMarketplace.cancel_auction (atEpoch 1) c7_s2 1 0).1).accounts 11).xtr
        = (c7_s2.accounts 11).xtr + 100
    ∧ (((NftMarketplace.cancel_auction (atEpoch 1) c7_s2 1 0).1).accounts 10).nfts theNft
        = (c7_s2.accounts 10).nfts theNft + 1
    ∧ lookupA ((NftMarketplace.cancel_auction (atEpoch 1) c7_s2 1 0).1).auctions theNft
        = some { vault := 0, seller_address := 10, min_price := none, buy_price := none,
                 highest_bid := none, ending_epoch := 10 }
    ∧ NftMarketplace.cancel_auction (atEpoch 10) c7_s2 1 0
        = (c7_s2, some "Auction has ended") := by
  have h1 := C7_cancel_behavior (atEpoch 1) c7_s2 0 theNft
    { vault := 1, seller_address := 10, min_price := none, buy_price := none,
      highest_bid := some { bidder_account := 11, vault := 100 }, ending_epoch := 10 }
    (by decide) (by decide) rfl
  have h10 := C7_cancel_behavior (atEpoch 10) c7_s2 0 theNft
    { vault := 1, seller_address := 10, min_price := none, buy_price := none,
      highest_bid := some { bidder_account := 11, vault := 100 }, ending_epoch := 10 }
    (by decide) (by decide) rfl
  have h2 := h1.2.1 (by decide)
  exact ⟨h1.1 9 (by decide), h2.1, h2.2.1, h2.2.2.1, h2.2.2.2, h10.2.2 (by decide)⟩


/-- Appending one refund to the list applies it last. -/
theorem refundAll_append_single (accs : Addr → Account) (l : List (Addr × Nat))
    (x : Addr × Nat) :
    refundAll accs (l ++ [x]) = depositXtr (refundAll accs l) x.1 x.2 := by
  induction l generalizing accs with
  | nil =>
    obtain ⟨who, amt⟩ := x
    rfl
  | cons p rest ih =>
    obtain ⟨who, amt⟩ := p
    unfold refundAll
    exact ih (depositXtr accs who amt)

/-- A one-longer prefix of the indexed element. -/
theorem take_concat_index (bids : List (Addr × Nat)) (i : Nat) (hi : i < bids.length) :
    bids.take i ++ [bids.get ⟨i, hi⟩] = bids.take (i + 1) := by
  have h := List.take_concat_get bids i hi
  rw [List.concat_eq_append] at h
  exact h

/-- Full characterization of every prefix of an accepted bid chain from
an empty bid slot: the run succeeds, the bid slot holds exactly the
i-th bid, and the accounts ledger is the initial one with exactly one
refund per outbid bid j < i, of exactly its own amount, in outbid
order. No distinctness of bidders is assumed: a bidder outbidding
themselves simply receives their own refund. -/
theorem runBidsE_prefix_char (c : Ctx) (s : MarketState) (nft : NftAddress) (a : Auction)
    (bids : List (Addr × Nat))
    (hl : lookupA s.auctions nft = some a)
    (hhb : a.highest_bid = none)
    (hep : c.epoch < a.ending_epoch)
    (hacct : ∀ p ∈ bids, c.isAccount p.1 = true)
    (hchain : ChainOkN a.min_price a.buy_price bids)
    (i : Nat) (hi : i < bids.length) :
    runBidsE c nft (bids.take (i + 1)) s
      = ({ s with
            auctions := updA s.auctions nft
              { a with highest_bid := some ⟨(bids.get ⟨i, hi⟩).1, (bids.get ⟨i, hi⟩).2⟩ },
            accounts := refundAll s.accounts (bids.take i) }, none) := by
  cases bids with
  | nil => exact absurd hi (by simp)
  | cons b0 rest' =>
    obtain ⟨w0, v0⟩ := b0
    have htake : ((w0, v0) :: rest').take (i + 1) = (w0, v0) :: rest'.take i := rfl
    have hchainT := ChainOkN_take a.min_price a.buy_price ((w0, v0) :: rest') (i + 1) hchain
    rw [htake] at hchainT
    have hacctT : ∀ p ∈ (w0, v0) :: rest'.take i, c.isAccount p.1 = true := by
      intro p hp
      apply hacct
      rw [← htake] at hp
      exact List.take_subset _ _ hp
    have hrun := runBidsE_none_char c nft w0 v0 (rest'.take i) s a hl hhb hep hacctT hchainT
    have hlast : lastD (w0, v0) (rest'.take i) = ((w0, v0) :: rest').get ⟨i, hi⟩ := by
      have h2 := lastD_take ((w0, v0) :: rest') i hi (w0, v0)
      rw [htake] at h2
      simpa [lastD] using h2
    have hdl : ((w0, v0) :: rest'.take i).dropLast = ((w0, v0) :: rest').take i := by
      rw [← htake]
      exact take_succ_dropLast _ i hi
    rw [htake, hrun, hlast, hdl]

/-- C4 (amended): for every chain of bids on an auction with an empty
bid slot — strictly increasing amounts, each meeting the minimum price
and strictly below the buy price, by account-capable bidders, all
before `ending_epoch` — every bid call of every prefix is accepted;
after the i-th accepted bid the bid slot of the auction holds exactly
the amount of bid i; the accounts ledger then carries exactly one
refund per outbid bid j < i, of exactly its own amount, in outbid
order; and each accepted bid i deposits exactly the amount of the
previous highest bid back to the previous highest bidder (the refund is
issued during the call that outbids it, before the new bid is
recorded). Bidders need not be distinct: a bidder outbidding
themselves is refunded their own previous escrow. -/
theorem C4_amended_refunds (c : Ctx) (s : MarketState) (nft : NftAddress) (a : Auction)
    (bids : List (Addr × Nat))
    (hl : lookupA s.auctions nft = some a)
    (hhb : a.highest_bid = none)
    (hep : c.epoch < a.ending_epoch)
    (hacct : ∀ p ∈ bids, c.isAccount p.1 = true)
    (hchain : ChainOkN a.min_price a.buy_price bids)
    (i : Nat) (hi : i < bids.length) :
    (runBidsE c nft (bids.take (i + 1)) s).2 = none
    ∧ lookupA (runBidsE c nft (bids.take (i + 1)) s).1.auctions nft
        = some { a with highest_bid := some ⟨(bids.get ⟨i, hi⟩).1, (bids.get ⟨i, hi⟩).2⟩ }
    ∧ (runBidsE c nft (bids.take (i + 1)) s).1.accounts = refundAll s.accounts (bids.take i)
    ∧ ∀ hi0 : 0 < i,
        (runBidsE c nft (bids.take (i + 1)) s).1.accounts
          = depositXtr ((runBidsE c nft (bids.take i) s).1.accounts)
              (bids.get ⟨i - 1, by omega⟩).1 (bids.get ⟨i - 1, by omega⟩).2 := by
  have hchar := runBidsE_prefix_char c s nft a bids hl hhb hep hacct hchain i hi
  refine ⟨by rw [hchar], ?_, by rw [hchar], ?_⟩
  · have hauc : (runBidsE c nft (bids.take (i + 1)) s).1.auctions
        = updA s.auctions nft
            { a with highest_bid := some ⟨(bids.get ⟨i, hi⟩).1, (bids.get ⟨i, hi⟩).2⟩ } := by
      rw [hchar]
    rw [hauc, lookupA_updA, if_pos rfl]
  · intro hi0
    have hi1 : i - 1 < bids.length := by omega
    have hchar2 := runBidsE_prefix_char c s nft a bids hl hhb hep hacct hchain (i - 1) hi1
    have hstep : (i - 1) + 1 = i := by omega
    rw [hstep] at hchar2
    have hacc1 : (runBidsE c nft (bids.take (i + 1)) s).1.accounts
        = refundAll s.accounts (bids.take i) := by
      rw [hchar]
    have hacc2 : (runBidsE c nft (bids.take i) s).1.accounts
        = refundAll s.accounts (bids.take (i - 1)) := by
      rw [hchar2]
    rw [hacc1, hacc2]
    have htc : bids.take (i - 1) ++ [bids.get ⟨i - 1, hi1⟩] = bids.take i := by
      have h2 := take_concat_index bids (i - 1) hi1
      rwa [hstep] at h2
    rw [← htc, refundAll_append_single]

/-- Witness for the amended chain theorem: chain 10 < 20 (both below
buy price 100), bidder 11 then bidder 12; both bids are accepted, the
bid vault ends at 20 held for bidder 12, and bidder 11 has been
refunded exactly 10 during the second call. -/
theorem C4_amended_refunds_witness :
    (runBidsE (atEpoch 0) theNft [((11 : Nat), (10 : Nat)), (12, 20)] c4_s1).2 = none
    ∧ lookupA (runBidsE (atEpoch 0) theNft [((11 : Nat), (10 : Nat)), (12, 20)] c4_s1).1.auctions
          theNft
        = some { vault := 1, seller_address := 10, min_price := none, buy_price := some 100,
                 highest_bid := some { bidder_account := 12, vault := 20 }, ending_epoch := 10 }
    ∧ ((runBidsE (atEpoch 0) theNft [((11 : Nat), (10 : Nat)), (12, 20)] c4_s1).1.accounts 11).xtr
        = (c4_s1.accounts 11).xtr + 10 := by
  have h := C4_amended_refunds (atEpoch 0) c4_s1 theNft
    { vault := 1, seller_address := 10, min_price := none, buy_price := some 100,
      highest_bid := none, ending_epoch := 10 }
    [(11, 10), (12, 20)] (by decide) rfl (by decide) (by decide)
    ⟨trivial, by decide, by decide, trivial, by decide, trivial⟩ 1 (by decide)
  refine ⟨h.1, h.2.1, ?_⟩
  have hacc : (runBidsE (atEpoch 0) theNft [((11 : Nat), (10 : Nat)), (12, 20)] c4_s1).1.accounts
      = refundAll c4_s1.accounts [(11, 10)] := h.2.2.1
  rw [hacc]
  decide
